import Mathlib

/-!
Verification of the clearmodel path-safety validator and cache-pruning engine.

The definitions below are a shallow embedding of the Rust sources:
`src/security.rs` (SecurityManager), `src/resource_manager.rs`
(ResourceManager) and `src/config.rs` (ClearModelConfig).  Paths are
modelled as component lists, machine integers as `Nat`, fallible
functions as `Except`.  Filesystem canonicalization (`Path::canonicalize`)
is modelled lexically: on a symlink-free tree it coincides with the
`resolve_path_manually` fallback (the `path_clean` crate), which is the
in-repository resolution code.  The `cfg!(target_os = "macos")` branch of
`validate_deletion_safety` is compiled out on non-macOS targets and is
not modelled.
-/

deriving instance DecidableEq for Except

namespace Clearmodel

/-- Mirror of `ClearModelError` (src/errors.rs); only the variants the
verified core constructs are included. -/
inductive ClearModelError where
  | configuration (message : String)
  | pathTraversal (path : List String)
  | fileOperation (message : String)
  | security (message : String)
deriving DecidableEq, Repr

/-- A path component as produced by Rust's `Path::components()`:
`ParentDir`, `CurDir` or `Normal`.  `RootDir` is carried by the
`absolute` flag of `RPath`. -/
inductive PComp where
  | parent
  | cur
  | normal (s : String)
deriving DecidableEq, Repr

/-- A filesystem path: a root-dir flag plus the component list
(Rust `PathBuf` viewed through `components()`, which already drops
empty and interior `.` segments). -/
structure RPath where
  absolute : Bool
  comps : List PComp
deriving DecidableEq, Repr

/-- One step of the `path_clean` crate's lexical cleaning, processing the
next component against the (reversed) accumulator: drop `.`, pop a normal
component on `..`, drop a leading `..` of a rooted path, keep a leading
`..` of a relative path. -/
def cleanStep (absolute : Bool) (acc : List PComp) (c : PComp) : List PComp :=
  match c with
  | .cur => acc
  | .normal s => .normal s :: acc
  | .parent =>
    match acc with
    | .normal _ :: rest => rest
    | _ => if absolute then acc else .parent :: acc

/-- Model of `PathClean::clean` (path_clean crate), used by
`SecurityManager::resolve_path_manually`: lexically collapse `.` and `..`;
an empty relative result becomes `.`. -/
def clean (p : RPath) : RPath :=
  { absolute := p.absolute
    comps :=
      if p.absolute = false ∧ (p.comps.foldl (cleanStep p.absolute) []).reverse = [] then
        [PComp.cur]
      else (p.comps.foldl (cleanStep p.absolute) []).reverse }

/-- Model of `SecurityManager::resolve_path_manually` (src/security.rs:57-67):
clean the path; if still relative, anchor it to the current working
directory (`current_dir.join(cleaned)`; the join is followed by Rust's
component iteration, which drops a `.` that is no longer leading). -/
def resolve_path_manually (current_dir : RPath) (path : RPath) : RPath :=
  if (clean path).absolute then clean path
  else { absolute := current_dir.absolute
         comps := current_dir.comps ++ (clean path).comps.filter (fun c => c ≠ PComp.cur) }

/-- Rust `Path::starts_with`: component-wise prefix (root component
included). -/
def startsWith (p base : RPath) : Bool :=
  (p.absolute == base.absolute) && decide (base.comps <+: p.comps)

/-- Substring containment on UTF-8 strings (Rust `str::contains`). -/
def containsSubstr (s pat : String) : Bool :=
  decide (pat.data <:+: s.data)

/-- The suspicious-pattern test of
`SecurityManager::validate_path_components` (src/security.rs:82):
a component name containing `..` or `./`. -/
def suspiciousComponent (s : String) : Bool :=
  containsSubstr s ".." || containsSubstr s "./"

/-- Component loop of `SecurityManager::validate_path_components`
(src/security.rs:70-110): a normal component with a suspicious pattern,
or a surviving `..`/`.` component, is a security error; the
filename-sanitizer comparison only logs and is not modelled. -/
def validateComps : List PComp → Except ClearModelError Unit
  | [] => .ok ()
  | .normal s :: rest =>
    if suspiciousComponent s then
      .error (.security ("Suspicious path component: " ++ s))
    else validateComps rest
  | .parent :: _ => .error (.security "Unresolved parent directory component found")
  | .cur :: _ => .error (.security "Unresolved current directory component found")

/-- Model of `SecurityManager::validate_path_components` on a whole path. -/
def validate_path_components (p : RPath) : Except ClearModelError Unit :=
  validateComps p.comps

/-- Display form of a component, for the `PathTraversal` error payload. -/
def compString : PComp → String
  | .normal s => s
  | .parent => ".."
  | .cur => "."

/-- Model of `SecurityManager::validate_and_sanitize_path` (src/security.rs:20-54).
Canonicalization of the candidate path is modelled by the lexical
resolution (`resolve_path_manually`); the base, which must exist, is
modelled by its lexical cleaning. -/
def validate_and_sanitize_path (current_dir path allowed_base : RPath) :
    Except ClearModelError RPath :=
  if !startsWith (resolve_path_manually current_dir path) (clean allowed_base) then
    .error (.pathTraversal
      ((resolve_path_manually current_dir path).comps.map compString))
  else
    match validate_path_components (resolve_path_manually current_dir path) with
    | .ok () => .ok (resolve_path_manually current_dir path)
    | .error e => .error e

/-- The fixed blocklist of `SecurityManager::validate_deletion_safety`
(src/security.rs:147-161). -/
def dangerous_paths : List String :=
  ["/", "/bin", "/boot", "/dev", "/etc", "/lib", "/proc", "/root",
   "/sbin", "/sys", "/usr", "/var/log", "/var/lib"]

/-- Rust `str::starts_with` as a character-list prefix (equivalent to the
byte prefix on valid UTF-8). -/
def strStartsWith (path d : String) : Bool :=
  decide (d.data <+: path.data)

/-- Model of `SecurityManager::validate_deletion_safety` (src/security.rs:145-190)
on the path's string form (`to_string_lossy`); lengths are UTF-8 byte
lengths as in Rust `str::len`. -/
def validate_deletion_safety (path : String) : Except ClearModelError Unit :=
  if dangerous_paths.any (fun d =>
      strStartsWith path d && path.utf8ByteSize ≤ d.utf8ByteSize + 1) then
    .error (.security ("Attempted to delete critical system path: " ++ path))
  else
    .ok ()

/-- ASCII lowercasing of a string (Rust `str::to_lowercase`, restricted
to the ASCII range the configured keyword lists use). -/
def lowerStr (s : String) : String :=
  String.mk (s.data.map Char.toLower)

/-- Advisory cache-location keywords of
`SecurityManager::validate_cache_path` (src/security.rs:197-201); their
failure only logs a warning. -/
def cache_indicators : List String :=
  ["cache", "tmp", "temp", ".cache", "huggingface",
   "torch", "tensorflow", "keras", "transformers",
   "anthropic", "openai", "pytorch", "models"]

/-- User-data keywords of `SecurityManager::validate_cache_path`
(src/security.rs:212-215). -/
def user_data_indicators : List String :=
  ["documents", "desktop", "downloads", "pictures",
   "music", "videos", "dropbox", "googledrive"]

/-- Model of `SecurityManager::validate_cache_path` (src/security.rs:193-227):
lowercase the path string; the cache-indicator test is advisory (warn
only); a user-data keyword anywhere in the string is a hard security
error. -/
def validate_cache_path (path : String) : Except ClearModelError Unit :=
  let path_str := lowerStr path
  let _is_cache_path := cache_indicators.any (fun i => containsSubstr path_str i)
  if user_data_indicators.any (fun i => containsSubstr path_str i) then
    .error (.security ("Refusing to clean user data directory: " ++ path))
  else
    .ok ()

/-- Mirror of `SecurityConfig` (src/config.rs:44-57); the
confirmation-threshold field is unused by the engine and omitted. -/
structure SecurityConfig where
  validate_cache_paths : Bool
  check_path_traversal : Bool
  max_path_depth : Nat
deriving DecidableEq, Repr

/-- Mirror of `ClearModelConfig` (src/config.rs:10-41), restricted to the
fields the cleaning engine reads; the cache roots are carried separately
as `CacheRoot` values (a path plus its directory tree). -/
structure ClearModelConfig where
  max_cache_age_days : Nat
  follow_symlinks : Bool
  python_cache_extensions : List String
  skip_directories : List String
  security : SecurityConfig
deriving DecidableEq, Repr

/-- Model of `SecurityConfig::default` (src/config.rs:87-96). -/
def SecurityConfig.default : SecurityConfig :=
  { validate_cache_paths := true
    check_path_traversal := true
    max_path_depth := 20 }

/-- Model of `ClearModelConfig::default` (src/config.rs:59-85), engine fields. -/
def defaultConfig : ClearModelConfig :=
  { max_cache_age_days := 7
    follow_symlinks := false
    python_cache_extensions := [".pyc", ".pyo", ".pyd"]
    skip_directories := [".git", ".svn", "node_modules", ".venv", "venv", "__pycache__"]
    security := SecurityConfig.default }

/-- Metadata of a regular file: size in bytes and modification time in
seconds; `none` models `Metadata::modified()` failing. -/
structure FileMeta where
  size : Nat
  mtime : Option Nat
deriving DecidableEq, Repr

/-- A directory-tree entry: a regular file, a symlink whose target is a
regular file, a directory, or a symlink whose target is a directory
(with the target's children). -/
inductive FsEntry where
  | file (name : String) (meta : FileMeta)
  | symlinkFile (name : String) (meta : FileMeta)
  | dir (name : String) (children : List FsEntry)
  | symlinkDir (name : String) (children : List FsEntry)

/-- A configured cache root that exists: its absolute path (component
list) and the entries directly under it. -/
structure CacheRoot where
  path : List String
  entries : List FsEntry

/-- String form of a root path (`Path::to_string_lossy`). -/
def pathString (comps : List String) : String :=
  "/" ++ String.intercalate "/" comps

/-- Suffix after the last `.` of a character list, if any. -/
def extScan : List Char → Option (List Char)
  | [] => none
  | c :: rest =>
    match extScan rest with
    | some e => some e
    | none => if c = '.' then some rest else none

/-- Rust `Path::extension` on a file name: the portion after the last
`.`; none when there is no dot, when the only dot is the leading one, or
for the literal `..`. -/
def extension (name : String) : Option String :=
  if name = ".." then none
  else
    match name.data with
    | '.' :: rest => (extScan rest).map String.mk
    | cs => (extScan cs).map String.mk

/-- Extension rule of `ResourceManager::should_clean_file`
(src/resource_manager.rs:313-318): dot-prefixed extension contained in
the configured extension list. -/
def extMatch (config : ClearModelConfig) (name : String) : Bool :=
  match extension name with
  | some ext => decide (("." ++ ext) ∈ config.python_cache_extensions)
  | none => false

/-- Model of `max_cache_age_days as u64 * 24 * 3600` (src/resource_manager.rs:339). -/
def maxAgeSecs (config : ClearModelConfig) : Nat :=
  config.max_cache_age_days * 24 * 3600

/-- Model of `ResourceManager::should_clean_file` (src/resource_manager.rs:311-347)
given the file name, the parent directory's bare name and the metadata:
extension rule, then `__pycache__` parent rule, then the age rule
(`duration_since` clamps a future mtime to zero, modelled by `Nat`
truncated subtraction; an unavailable mtime skips the age rule). -/
def should_clean_file (config : ClearModelConfig) (now : Nat)
    (name : String) (parent : Option String) (meta : FileMeta) : Bool :=
  if extMatch config name then true
  else if decide (parent = some "__pycache__") then true
  else
    match meta.mtime with
    | some modified => decide (now - modified > maxAgeSecs config)
    | none => false

/-- The skip filter of `process_directory_contents`
(src/resource_manager.rs:201-208): `filter_entry` drops every entry —
file or directory — whose bare name is in `skip_directories`. -/
def skipName (config : ClearModelConfig) (n : String) : Bool :=
  decide (n ∈ config.skip_directories)

/-- A regular file yielded by the walk: the component path of its
directory, its bare name and its metadata. -/
structure FileRec where
  dirPath : List String
  name : String
  meta : FileMeta
deriving DecidableEq, Repr

/-- The walkdir traversal of `process_directory_contents`
(src/resource_manager.rs:197-225) below the root: depth-first in entry
order, bounded by `max_path_depth` (entries at depth `d` are visited when
`d ≤ max_path_depth`), pruning skip-named entries, collecting the entries
whose `file_type().is_file()` holds — regular files always, symlinks to
regular files only under `follow_links` (walkdir then classifies the
entry by its target's type; otherwise the entry has symlink type). -/
def walkList (config : ClearModelConfig) : Nat → List String → List FsEntry → List FileRec
  | _, _, [] => []
  | d, rp, e :: rest =>
    (match e with
     | .file n m =>
       if skipName config n then [] else [⟨rp, n, m⟩]
     | .symlinkFile n m =>
       if skipName config n then []
       else if config.follow_symlinks then [⟨rp, n, m⟩] else []
     | .dir n ch =>
       if skipName config n then []
       else if d < config.security.max_path_depth then
         walkList config (d + 1) (rp ++ [n]) ch
       else []
     | .symlinkDir n ch =>
       if skipName config n then []
       else if config.follow_symlinks && d < config.security.max_path_depth then
         walkList config (d + 1) (rp ++ [n]) ch
       else []) ++ walkList config d rp rest

/-- Bare name of the root entry (`DirEntry::file_name` of the walk root). -/
def rootName (root : CacheRoot) : String :=
  (root.path.getLast?).getD "/"

/-- The full walk of one root: walkdir yields the root itself at depth 0
(subject to the same `filter_entry` predicate) and descends only when
`max_path_depth ≥ 1`. -/
def walkRoot (config : ClearModelConfig) (root : CacheRoot) : List FileRec :=
  if skipName config (rootName root) then []
  else if 1 ≤ config.security.max_path_depth then
    walkList config 1 root.path root.entries
  else []

/-- Model of `ResourceManager::process_single_file` (src/resource_manager.rs:271-308):
counts contributed by one walked file — `(1, size)` when the cleanup
policy matches (identically in dry-run and real mode), `(0, 0)` otherwise.
The deletion side effect is modelled by `removeList` below. -/
def process_single_file (config : ClearModelConfig) (now : Nat)
    (dry_run : Bool) (f : FileRec) : Nat × Nat :=
  let _ := dry_run
  if should_clean_file config now f.name f.dirPath.getLast? f.meta then
    (1, f.meta.size)
  else
    (0, 0)

/-- Model of `ResourceManager::process_directory_contents`
(src/resource_manager.rs:186-268): walk the root, then aggregate the
per-file counts.  The 100-entry batching only schedules work and updates
the statistics store; the running totals are the same fold.  Per-file
errors are counted in the statistics store, not in the totals, and the
function itself always returns `Ok`. -/
def process_directory_contents (config : ClearModelConfig) (now : Nat)
    (root : CacheRoot) (dry_run : Bool) : Except ClearModelError (Nat × Nat) :=
  .ok ((walkRoot config root).foldl
    (fun acc f =>
      let r := process_single_file config now dry_run f
      (acc.1 + r.1, acc.2 + r.2))
    (0, 0))

/-- Effect of the real (non-dry) sweep on a tree: every walked file the
policy matches is removed (for a followed file symlink, the link entry
itself); pruned or undescended subtrees are untouched.  Mirrors the walk
gating of `walkList`. -/
def removeList (config : ClearModelConfig) (now : Nat) :
    Nat → List String → List FsEntry → List FsEntry
  | _, _, [] => []
  | d, rp, e :: rest =>
    (match e with
     | .file n m =>
       if skipName config n then [.file n m]
       else if should_clean_file config now n rp.getLast? m then []
       else [.file n m]
     | .symlinkFile n m =>
       if skipName config n then [.symlinkFile n m]
       else if config.follow_symlinks &&
           should_clean_file config now n rp.getLast? m then []
       else [.symlinkFile n m]
     | .dir n ch =>
       if skipName config n then [.dir n ch]
       else if d < config.security.max_path_depth then
         [.dir n (removeList config now (d + 1) (rp ++ [n]) ch)]
       else [.dir n ch]
     | .symlinkDir n ch =>
       if skipName config n then [.symlinkDir n ch]
       else if config.follow_symlinks && d < config.security.max_path_depth then
         [.symlinkDir n (removeList config now (d + 1) (rp ++ [n]) ch)]
       else [.symlinkDir n ch]) ++ removeList config now d rp rest

/-- The real sweep's deletions applied to a whole root, with the same
root-level gating as `walkRoot`. -/
def removeRoot (config : ClearModelConfig) (now : Nat) (root : CacheRoot) : CacheRoot :=
  if skipName config (rootName root) then root
  else if 1 ≤ config.security.max_path_depth then
    { root with entries := removeList config now 1 root.path root.entries }
  else root

/-- Mirror of `CleanupResult` (src/resource_manager.rs:47-54); the
wall-clock `duration` field is not modelled. -/
structure CleanupResult where
  path : List String
  files_removed : Nat
  bytes_freed : Nat
  errors : List String
deriving DecidableEq, Repr

/-- Display form of an error (the `thiserror` formats of src/errors.rs
that the engine can produce). -/
def errMessage : ClearModelError → String
  | .configuration m => "Configuration error: " ++ m
  | .pathTraversal p =>
    "Path traversal security violation: attempted to access " ++ pathString p
  | .fileOperation m => "File operation error: " ++ m
  | .security m => "Security validation failed: " ++ m

/-- Model of `ResourceManager::clean_cache_directory`
(src/resource_manager.rs:131-183): run the two security gates
(`validate_cache_path` when configured, then `validate_deletion_safety`) —
a gate failure makes the whole job return `Err`; otherwise process the
directory contents, a processing error becoming an entry of the result's
`errors` list.  Returns the result together with the tree after the
sweep (unchanged in dry-run mode). -/
def clean_cache_directory (config : ClearModelConfig) (now : Nat)
    (root : CacheRoot) (dry_run : Bool) :
    Except ClearModelError (CleanupResult × CacheRoot) :=
  match (if config.security.validate_cache_paths then
           validate_cache_path (pathString root.path)
         else .ok ()) with
  | .error e => .error e
  | .ok _ =>
    match validate_deletion_safety (pathString root.path) with
    | .error e => .error e
    | .ok _ =>
      match process_directory_contents config now root dry_run with
      | .ok (files, bytes) =>
        .ok ({ path := root.path, files_removed := files, bytes_freed := bytes
               errors := [] },
             if dry_run then root else removeRoot config now root)
      | .error e =>
        .ok ({ path := root.path, files_removed := 0, bytes_freed := 0
               errors := ["Failed to process directory: " ++ errMessage e] },
             if dry_run then root else removeRoot config now root)

/-- Model of `ResourceManager::clean_all_caches` (src/resource_manager.rs:70-128)
over the existing roots: one job per root (spawned and awaited in root
order; the admission semaphore bounds concurrency but not the collected
output), pushing each `Ok` result and dropping — with an error log —
every job that returned `Err`, never aborting the siblings.  Also returns
the trees after the sweep. -/
def clean_all_caches (config : ClearModelConfig) (now : Nat)
    (roots : List CacheRoot) (dry_run : Bool) :
    List CleanupResult × List CacheRoot :=
  match roots with
  | [] => ([], [])
  | r :: rest =>
    match clean_cache_directory config now r dry_run with
    | .ok (res, r2) =>
      (res :: (clean_all_caches config now rest dry_run).1,
       r2 :: (clean_all_caches config now rest dry_run).2)
    | .error _ =>
      ((clean_all_caches config now rest dry_run).1,
       r :: (clean_all_caches config now rest dry_run).2)

/-- The walked files a sweep deletes (or, in dry-run mode, would delete):
the walk output filtered through the cleanup policy. -/
def eligibleFiles (config : ClearModelConfig) (now : Nat) (root : CacheRoot) :
    List FileRec :=
  (walkRoot config root).filter
    (fun f => should_clean_file config now f.name f.dirPath.getLast? f.meta)

/-- Whether the two security gates of `clean_cache_directory` pass for a
root (`validate_cache_path` when configured, and
`validate_deletion_safety`). -/
def gatesOk (config : ClearModelConfig) (root : CacheRoot) : Bool :=
  (match (if config.security.validate_cache_paths then
            validate_cache_path (pathString root.path)
          else .ok ()) with
   | .ok _ => true
   | .error _ => false) &&
  (match validate_deletion_safety (pathString root.path) with
   | .ok _ => true
   | .error _ => false)

/-- A tree with every symlink-to-file entry erased (used to state that,
with `follow_symlinks` off, the walk never sees them). -/
def dropSymlinkFiles : List FsEntry → List FsEntry
  | [] => []
  | .file n m :: rest => .file n m :: dropSymlinkFiles rest
  | .symlinkFile _ _ :: rest => dropSymlinkFiles rest
  | .dir n ch :: rest => .dir n (dropSymlinkFiles ch) :: dropSymlinkFiles rest
  | .symlinkDir n ch :: rest => .symlinkDir n (dropSymlinkFiles ch) :: dropSymlinkFiles rest

/-- Fixed sweep inputs for the concrete witnesses below. -/
def cfg8 : ClearModelConfig :=
  { defaultConfig with python_cache_extensions := [".pyc"] }

/-- A config with `follow_symlinks` enabled. -/
def cfgFollow : ClearModelConfig :=
  { defaultConfig with follow_symlinks := true }

/-- A root whose only entry is a symlink to a regular file. -/
def rootLink : CacheRoot :=
  ⟨["r"], [.symlinkFile "f.bin" ⟨7, some 0⟩]⟩

/-- A root whose path string contains the user-data keyword `documents`. -/
def rootDoc : CacheRoot :=
  ⟨["home", "u", "documents", "cache"], [.file "a.pyc" ⟨1, some 0⟩]⟩

/-- A cache root under `~/.cache` holding one loose file and a
`__pycache__` directory. -/
def rootCache : CacheRoot :=
  ⟨["home", "u", ".cache", "torch"],
   [.file "a.pyc" ⟨1024, some 0⟩,
    .file "b.txt" ⟨10, some 999⟩,
    .dir "__pycache__" [.file "m.pyc" ⟨9, some 0⟩]]⟩

/-- The result record the sweep of `rootCache` at time 1000 produces. -/
def resCache : CleanupResult :=
  { path := rootCache.path, files_removed := 1, bytes_freed := 1024, errors := [] }

/-- The result record a gate-passing root's job produces: the counts of
its eligible files and an empty error list. -/
def rootRecord (config : ClearModelConfig) (now : Nat) (root : CacheRoot) :
    CleanupResult :=
  { path := root.path
    files_removed := (eligibleFiles config now root).length
    bytes_freed := ((eligibleFiles config now root).map (fun f => f.meta.size)).sum
    errors := [] }

/-! ## Helper lemmas -/

theorem any_dangerous_iff (path : String) :
    (dangerous_paths.any (fun d =>
        strStartsWith path d && decide (path.utf8ByteSize ≤ d.utf8ByteSize + 1)) = true) ↔
      ∃ d ∈ dangerous_paths,
        strStartsWith path d = true ∧ path.utf8ByteSize ≤ d.utf8ByteSize + 1 := by
  rw [List.any_eq_true]
  constructor
  · rintro ⟨d, hd, hb⟩
    rw [Bool.and_eq_true] at hb
    exact ⟨d, hd, hb.1, of_decide_eq_true hb.2⟩
  · rintro ⟨d, hd, h1, h2⟩
    exact ⟨d, hd, by rw [Bool.and_eq_true]; exact ⟨h1, decide_eq_true h2⟩⟩

theorem lower_contains_of_append (pre kw post : String)
    (hk : kw.data.map Char.toLower = kw.data) :
    containsSubstr (lowerStr (pre ++ kw ++ post)) kw = true := by
  apply decide_eq_true
  refine ⟨pre.data.map Char.toLower, post.data.map Char.toLower, ?_⟩
  simp [lowerStr, String.data_append, List.map_append, hk]

theorem validateComps_ok (cs : List PComp) (h : validateComps cs = .ok ()) :
    ∀ c ∈ cs, c ≠ PComp.parent ∧ c ≠ PComp.cur := by
  induction cs with
  | nil => simp
  | cons c rest ih =>
    intro x hx
    cases c with
    | normal s =>
      rw [validateComps] at h
      split at h
      · cases h
      · rcases List.mem_cons.mp hx with rfl | hx'
        · exact ⟨by simp, by simp⟩
        · exact ih h x hx'
    | parent => cases h
    | cur => cases h

theorem validateComps_err_of_suspicious (cs : List PComp)
    (h : ∃ s, PComp.normal s ∈ cs ∧ suspiciousComponent s = true) :
    ∃ msg, validateComps cs = .error (.security msg) := by
  induction cs with
  | nil => rcases h with ⟨s, hs, _⟩; cases hs
  | cons c rest ih =>
    rcases h with ⟨s, hs, hsusp⟩
    cases c with
    | normal t =>
      by_cases ht : suspiciousComponent t = true
      · exact ⟨"Suspicious path component: " ++ t, by simp [validateComps, ht]⟩
      · rcases List.mem_cons.mp hs with heq | hmem
        · rw [PComp.normal.injEq] at heq
          subst heq
          exact absurd hsusp ht
        · rcases ih ⟨s, hmem, hsusp⟩ with ⟨msg, hm⟩
          exact ⟨msg, by simp [validateComps, ht, hm]⟩
    | parent =>
      exact ⟨"Unresolved parent directory component found", by simp [validateComps]⟩
    | cur =>
      exact ⟨"Unresolved current directory component found", by simp [validateComps]⟩

theorem foldl_cleanStep_normals (b : Bool) (cs : List PComp) (acc : List PComp)
    (h : ∀ c ∈ cs, ∃ s, c = PComp.normal s) :
    cs.foldl (cleanStep b) acc = cs.reverse ++ acc := by
  induction cs generalizing acc with
  | nil => simp
  | cons c rest ih =>
    rcases h c (by simp) with ⟨s, rfl⟩
    rw [List.foldl_cons, ih _ (fun c hc => h c (by simp [hc]))]
    simp [cleanStep]

theorem clean_of_normals (p : RPath) (habs : p.absolute = true)
    (h : ∀ c ∈ p.comps, ∃ s, c = PComp.normal s) : clean p = p := by
  obtain ⟨ab, cs⟩ := p
  simp only at habs
  subst habs
  unfold clean
  rw [foldl_cleanStep_normals true cs [] h]
  simp

/-! ## C1: validate_deletion_safety and the blocklist -/

/-- C1, counterexample: `/etc/passwd` is exactly one path-segment below
the blocklisted `/etc`, yet `validate_deletion_safety` accepts it: the
source compares `path_str.len() <= dangerous.len() + 1`, so only the
entry itself (optionally with one extra byte, e.g. a trailing slash) is
rejected. -/
theorem c1_counterexample :
    "/etc" ∈ dangerous_paths ∧
    validate_deletion_safety "/etc/passwd" = Except.ok () := by
  constructor
  · decide
  · decide

/-- C1, amended: `validate_deletion_safety` rejects a path exactly when
the path starts with a blocklist entry and its byte length is at most
the entry's length plus one — the entry itself, optionally followed by a
single byte (such as a trailing `/`); longer paths below a blocklisted
directory are accepted. -/
theorem c1_amended (path : String) :
    (∃ msg, validate_deletion_safety path = .error (.security msg)) ↔
      ∃ d ∈ dangerous_paths,
        strStartsWith path d = true ∧ path.utf8ByteSize ≤ d.utf8ByteSize + 1 := by
  unfold validate_deletion_safety
  by_cases hany : dangerous_paths.any (fun d =>
      strStartsWith path d && decide (path.utf8ByteSize ≤ d.utf8ByteSize + 1)) = true
  · rw [if_pos hany]
    constructor
    · intro _
      exact (any_dangerous_iff path).mp hany
    · intro _
      exact ⟨_, rfl⟩
  · rw [if_neg hany]
    constructor
    · rintro ⟨msg, h⟩
      cases h
    · intro hc
      exact absurd ((any_dangerous_iff path).mpr hc) hany

/-- Witness for C1's amended theorem: the exact blocklist entry `/etc`
is rejected. -/
theorem c1_amended_witness :
    ∃ msg, validate_deletion_safety "/etc" = .error (.security msg) :=
  (c1_amended "/etc").mpr ⟨"/etc", by decide, by decide, by decide⟩

/-! ## C2: validate_and_sanitize_path and traversal -/

/-- C2, counterexample: the input `/b/s/../f` contains a `..` component,
yet it resolves back inside the base `/b`, and
`validate_and_sanitize_path` returns the canonical path `/b/f` — the
function inspects only the resolved path, not the raw input. -/
theorem c2_counterexample :
    PComp.parent ∈ [PComp.normal "b", PComp.normal "s", PComp.parent, PComp.normal "f"] ∧
    validate_and_sanitize_path ⟨true, []⟩
      ⟨true, [PComp.normal "b", PComp.normal "s", PComp.parent, PComp.normal "f"]⟩
      ⟨true, [PComp.normal "b"]⟩ =
      .ok ⟨true, [PComp.normal "b", PComp.normal "f"]⟩ := by
  decide

/-- C2, amended: `validate_and_sanitize_path` never returns a path
outside the base — every `Ok` result starts with the cleaned base and is
free of `..`/`.` components — and whenever the resolved input escapes the
base it fails with a `PathTraversal` error; an input containing `..` is
rejected only through that escape check, so a `..` that resolves back
inside the base is accepted. -/
theorem c2_amended (cwd path base : RPath) :
    (∀ out, validate_and_sanitize_path cwd path base = .ok out →
      startsWith out (clean base) = true ∧
      ∀ c ∈ out.comps, c ≠ PComp.parent ∧ c ≠ PComp.cur) ∧
    (startsWith (resolve_path_manually cwd path) (clean base) = false →
      ∃ p, validate_and_sanitize_path cwd path base = .error (.pathTraversal p)) := by
  constructor
  · intro out h
    unfold validate_and_sanitize_path at h
    by_cases hsw : startsWith (resolve_path_manually cwd path) (clean base) = true
    · rw [hsw] at h
      simp only [Bool.not_true] at h
      rw [if_neg (by simp)] at h
      cases heq : validate_path_components (resolve_path_manually cwd path) with
      | ok u =>
        rw [heq] at h
        cases u
        simp only [Except.ok.injEq] at h
        subst h
        refine ⟨hsw, validateComps_ok _ ?_⟩
        exact heq
      | error e =>
        rw [heq] at h
        cases h
    · cases hb : startsWith (resolve_path_manually cwd path) (clean base) with
      | true => exact absurd hb hsw
      | false =>
        rw [hb] at h
        simp at h
  · intro hsw
    refine ⟨(resolve_path_manually cwd path).comps.map compString, ?_⟩
    unfold validate_and_sanitize_path
    rw [hsw]
    simp

/-- Witness for C2's amended theorem: `/b/../x` resolves to `/x`, which
escapes the base `/b`, and validation fails with a traversal error. -/
theorem c2_amended_witness :
    ∃ p, validate_and_sanitize_path ⟨true, []⟩
      ⟨true, [PComp.normal "b", PComp.parent, PComp.normal "x"]⟩
      ⟨true, [PComp.normal "b"]⟩ = .error (.pathTraversal p) := by
  exact (c2_amended ⟨true, []⟩
    ⟨true, [PComp.normal "b", PComp.parent, PComp.normal "x"]⟩
    ⟨true, [PComp.normal "b"]⟩).2 (by decide)

/-! ## C4: the user-data hard gate -/

/-- C4: for every path string containing one of the configured user-data
keywords, `validate_cache_path` returns a security error — the check is
a plain substring test on the lowercased path and is independent of any
base directory. -/
theorem c4_confirmed (path : String)
    (h : ∃ kw ∈ user_data_indicators, ∃ pre post, path = pre ++ kw ++ post) :
    ∃ msg, validate_cache_path path = .error (.security msg) := by
  rcases h with ⟨kw, hkw, pre, post, rfl⟩
  have hlower : kw.data.map Char.toLower = kw.data := by
    fin_cases hkw <;> rfl
  have hc : containsSubstr (lowerStr (pre ++ kw ++ post)) kw = true :=
    lower_contains_of_append pre kw post hlower
  have hany : user_data_indicators.any
      (fun i => containsSubstr (lowerStr (pre ++ kw ++ post)) i) = true :=
    List.any_eq_true.mpr ⟨kw, hkw, hc⟩
  exact ⟨"Refusing to clean user data directory: " ++ (pre ++ kw ++ post),
    by simp [validate_cache_path, hany]⟩

/-- Witness for C4 at the path `/home/u/documents/x`. -/
theorem c4_witness :
    ∃ msg, validate_cache_path "/home/u/documents/x" = .error (.security msg) := by
  exact c4_confirmed "/home/u/documents/x" ⟨"documents", by decide, "/home/u/", "/x", by decide⟩

/-! ## C10: suspicious normal components -/

/-- C10: for every canonical absolute path inside the allowed base one of
whose normal components contains `..` or `./` as a substring (e.g. a file
literally named `a..b`), `validate_and_sanitize_path` returns a security
error. -/
theorem c10_confirmed (cwd base path : RPath)
    (habs : path.absolute = true)
    (hnormal : ∀ c ∈ path.comps, ∃ s, c = PComp.normal s)
    (hin : startsWith path (clean base) = true)
    (hsusp : ∃ s, PComp.normal s ∈ path.comps ∧ suspiciousComponent s = true) :
    ∃ msg, validate_and_sanitize_path cwd path base = .error (.security msg) := by
  have hclean : clean path = path := clean_of_normals path habs hnormal
  have hres : resolve_path_manually cwd path = path := by
    unfold resolve_path_manually
    rw [hclean, habs]
    simp
  rcases validateComps_err_of_suspicious path.comps hsusp with ⟨msg, hm⟩
  refine ⟨msg, ?_⟩
  unfold validate_and_sanitize_path
  rw [hres, hin]
  simp [validate_path_components, hm]

/-- Witness for C10: the canonical path `/b/a..b` inside base `/b` is
rejected with a security error. -/
theorem c10_witness :
    ∃ msg, validate_and_sanitize_path ⟨true, []⟩
      ⟨true, [PComp.normal "b", PComp.normal "a..b"]⟩
      ⟨true, [PComp.normal "b"]⟩ = .error (.security msg) := by
  refine c10_confirmed ⟨true, []⟩ ⟨true, [PComp.normal "b"]⟩
    ⟨true, [PComp.normal "b", PComp.normal "a..b"]⟩ rfl ?_ (by decide)
    ⟨"a..b", by decide, by decide⟩
  intro c hc
  rcases List.mem_cons.mp hc with rfl | hc'
  · exact ⟨"b", rfl⟩
  · rcases List.mem_cons.mp hc' with rfl | hc''
    · exact ⟨"a..b", rfl⟩
    · cases hc''

/-! ## Engine helper lemmas -/

theorem foldl_process (config : ClearModelConfig) (now : Nat) (dry : Bool)
    (l : List FileRec) (a b : Nat) :
    l.foldl (fun acc f =>
        let r := process_single_file config now dry f
        (acc.1 + r.1, acc.2 + r.2)) (a, b) =
      (a + (l.filter (fun f =>
          should_clean_file config now f.name f.dirPath.getLast? f.meta)).length,
       b + ((l.filter (fun f =>
          should_clean_file config now f.name f.dirPath.getLast? f.meta)).map
            (fun f => f.meta.size)).sum) := by
  induction l generalizing a b with
  | nil => simp
  | cons f rest ih =>
    rw [List.foldl_cons]
    by_cases hf : should_clean_file config now f.name f.dirPath.getLast? f.meta = true
    · rw [ih]
      simp only [process_single_file, hf, if_true, List.filter_cons_of_pos,
        List.length_cons, List.map_cons, List.sum_cons]
      refine Prod.ext ?_ ?_ <;> simp <;> omega
    · rw [ih]
      simp only [process_single_file, if_neg hf, List.filter_cons_of_neg,
        Bool.not_eq_true]
      simp [hf]

theorem process_directory_contents_eq (config : ClearModelConfig) (now : Nat)
    (root : CacheRoot) (dry : Bool) :
    process_directory_contents config now root dry =
      .ok ((eligibleFiles config now root).length,
           ((eligibleFiles config now root).map (fun f => f.meta.size)).sum) := by
  unfold process_directory_contents
  rw [foldl_process]
  simp [eligibleFiles]

theorem clean_cache_directory_of_gatesOk (config : ClearModelConfig) (now : Nat)
    (root : CacheRoot) (dry : Bool) (h : gatesOk config root = true) :
    clean_cache_directory config now root dry =
      .ok ({ path := root.path
             files_removed := (eligibleFiles config now root).length
             bytes_freed := ((eligibleFiles config now root).map (fun f => f.meta.size)).sum
             errors := [] },
           if dry then root else removeRoot config now root) := by
  unfold gatesOk at h
  rw [Bool.and_eq_true] at h
  obtain ⟨h1, h2⟩ := h
  unfold clean_cache_directory
  cases hg1 : (if config.security.validate_cache_paths then
      validate_cache_path (pathString root.path) else .ok ()) with
  | error e => rw [hg1] at h1; cases h1
  | ok u =>
    cases hg2 : validate_deletion_safety (pathString root.path) with
    | error e => rw [hg2] at h2; cases h2
    | ok u2 =>
      rw [process_directory_contents_eq]

theorem clean_cache_directory_of_gatesFail (config : ClearModelConfig) (now : Nat)
    (root : CacheRoot) (dry : Bool) (h : gatesOk config root = false) :
    ∃ e, clean_cache_directory config now root dry = .error e := by
  unfold gatesOk at h
  unfold clean_cache_directory
  cases hg1 : (if config.security.validate_cache_paths then
      validate_cache_path (pathString root.path) else .ok ()) with
  | error e => exact ⟨e, rfl⟩
  | ok u =>
    rw [hg1] at h
    simp only [Bool.true_and] at h
    cases hg2 : validate_deletion_safety (pathString root.path) with
    | error e => exact ⟨e, rfl⟩
    | ok u2 => rw [hg2] at h; cases h

theorem walkList_inv (config : ClearModelConfig) (d : Nat) (rp : List String)
    (entries : List FsEntry) :
    ∀ rec ∈ walkList config d rp entries,
      skipName config rec.name = false ∧
      ∃ suffix, rec.dirPath = rp ++ suffix ∧
        ∀ c ∈ suffix, skipName config c = false := by
  induction d, rp, entries using walkList.induct config with
  | case1 d rp =>
    intro rec h
    simp [walkList] at h
  | case2 d rp e rest ihe ihrest =>
    intro rec hrec
    rw [walkList.eq_def] at hrec
    cases e with
    | file n m =>
      dsimp only at hrec
      rcases List.mem_append.mp hrec with hhead | htail
      · by_cases hskip : skipName config n = true
        · rw [if_pos hskip] at hhead; cases hhead
        · rw [if_neg hskip, List.mem_singleton] at hhead
          subst hhead
          exact ⟨Bool.eq_false_iff.mpr hskip, [], by simp, by simp⟩
      · exact ihrest rec htail
    | symlinkFile n m =>
      dsimp only at hrec
      rcases List.mem_append.mp hrec with hhead | htail
      · by_cases hskip : skipName config n = true
        · rw [if_pos hskip] at hhead; cases hhead
        · rw [if_neg hskip] at hhead
          by_cases hf : config.follow_symlinks = true
          · rw [if_pos hf, List.mem_singleton] at hhead
            subst hhead
            exact ⟨Bool.eq_false_iff.mpr hskip, [], by simp, by simp⟩
          · rw [if_neg hf] at hhead; cases hhead
      · exact ihrest rec htail
    | dir n ch =>
      dsimp only at hrec
      rcases List.mem_append.mp hrec with hhead | htail
      · by_cases hskip : skipName config n = true
        · rw [if_pos hskip] at hhead; cases hhead
        · rw [if_neg hskip] at hhead
          by_cases hd : d < config.security.max_path_depth
          · rw [if_pos hd] at hhead
            obtain ⟨hname, suffix, hpath, hsuf⟩ := ihe rec hhead
            refine ⟨hname, n :: suffix, ?_, ?_⟩
            · rw [hpath]; simp
            · intro c hc
              rcases List.mem_cons.mp hc with rfl | hc2
              · exact Bool.eq_false_iff.mpr hskip
              · exact hsuf c hc2
          · rw [if_neg hd] at hhead; cases hhead
      · exact ihrest rec htail
    | symlinkDir n ch =>
      dsimp only at hrec
      rcases List.mem_append.mp hrec with hhead | htail
      · by_cases hskip : skipName config n = true
        · rw [if_pos hskip] at hhead; cases hhead
        · rw [if_neg hskip] at hhead
          by_cases hfd : (config.follow_symlinks && decide (d < config.security.max_path_depth)) = true
          · rw [if_pos hfd] at hhead
            obtain ⟨hname, suffix, hpath, hsuf⟩ := ihe rec hhead
            refine ⟨hname, n :: suffix, ?_, ?_⟩
            · rw [hpath]; simp
            · intro c hc
              rcases List.mem_cons.mp hc with rfl | hc2
              · exact Bool.eq_false_iff.mpr hskip
              · exact hsuf c hc2
          · rw [if_neg hfd] at hhead; cases hhead
      · exact ihrest rec htail

/-! ## C8: the cleanup-eligibility decision -/

/-- C8: `should_clean_file` follows the three ordered rules: a file whose
dot-prefixed extension is in the configured set is cleaned regardless of
its age or parent directory, and a file matching no rule (extension not
in the set, parent not `__pycache__`, age within the maximum) is
retained. -/
theorem c8_confirmed (config : ClearModelConfig) (now : Nat)
    (name : String) (parent : Option String) (meta : FileMeta) :
    ((∃ e, extension name = some e ∧ ("." ++ e) ∈ config.python_cache_extensions) →
      should_clean_file config now name parent meta = true) ∧
    ((∀ e, extension name = some e → ("." ++ e) ∉ config.python_cache_extensions) →
      parent ≠ some "__pycache__" →
      (∀ m, meta.mtime = some m → now - m ≤ maxAgeSecs config) →
      should_clean_file config now name parent meta = false) := by
  constructor
  · rintro ⟨e, he, hmem⟩
    have hextm : extMatch config name = true := by
      unfold extMatch
      rw [he]
      exact decide_eq_true hmem
    simp [should_clean_file, hextm]
  · intro hext hpar hage
    have hextm : extMatch config name = false := by
      unfold extMatch
      cases he : extension name with
      | none => rfl
      | some e => exact decide_eq_false (hext e he)
    have hp : decide (parent = some "__pycache__") = false := decide_eq_false hpar
    cases hm : meta.mtime with
    | none => simp [should_clean_file, hextm, hp, hm]
    | some m =>
      have h2 : decide (now - m > maxAgeSecs config) = false :=
        decide_eq_false (Nat.not_lt.mpr (hage m hm))
      simp [should_clean_file, hextm, hp, hm, h2]

/-- Witness for C8 (the spec's Scenario A inputs): with extensions
`[".pyc"]` and a 7-day maximum age, a one-day-old `a.pyc` is cleaned and
a one-day-old `b.txt` is retained. -/
theorem c8_witness :
    should_clean_file cfg8 1000000 "a.pyc" (some "proj") ⟨1024, some 913600⟩ = true ∧
    should_clean_file cfg8 1000000 "b.txt" (some "proj") ⟨10, some 913600⟩ = false := by
  constructor
  · exact (c8_confirmed cfg8 1000000 "a.pyc" (some "proj") ⟨1024, some 913600⟩).1
      ⟨"pyc", by decide, by decide⟩
  · refine (c8_confirmed cfg8 1000000 "b.txt" (some "proj") ⟨10, some 913600⟩).2
      ?_ (by decide) ?_
    · intro e he
      have h2 : extension "b.txt" = some "txt" := by decide
      rw [h2] at he
      injection he with h3
      subst h3
      decide
    · intro m hm
      injection hm with h3
      subst h3
      decide

/-! ## C9: the skip filter -/

/-- C9: every file the walk yields has a bare name outside
`skip_directories` (the `filter_entry` predicate applies to files too),
and — when `__pycache__` is in the skip list, as it is by default — the
file's directory path gains no `__pycache__` component below the root and
its immediate parent is never `__pycache__`, so the parent-directory
cleanup rule cannot match. -/
theorem c9_confirmed (config : ClearModelConfig) (root : CacheRoot)
    (hpy : "__pycache__" ∈ config.skip_directories) :
    ∀ rec ∈ walkRoot config root,
      rec.name ∉ config.skip_directories ∧
      rec.dirPath.getLast? ≠ some "__pycache__" ∧
      ∃ suffix, rec.dirPath = root.path ++ suffix ∧ "__pycache__" ∉ suffix := by
  intro rec hrec
  unfold walkRoot at hrec
  by_cases hskip : skipName config (rootName root) = true
  · rw [if_pos hskip] at hrec; cases hrec
  · rw [if_neg hskip] at hrec
    by_cases hd : 1 ≤ config.security.max_path_depth
    · rw [if_pos hd] at hrec
      obtain ⟨hname, suffix, hpath, hsuf⟩ := walkList_inv config 1 root.path root.entries rec hrec
      refine ⟨?_, ?_, suffix, hpath, ?_⟩
      · intro hmem
        rw [skipName] at hname
        simp [hmem] at hname
      · rw [hpath]
        rcases List.eq_nil_or_concat suffix with rfl | ⟨l, a, rfl⟩
        · rw [List.append_nil]
          intro hlast
          apply hskip
          rw [skipName]
          have hroot : rootName root = "__pycache__" := by
            rw [rootName, hlast]
            rfl
          rw [hroot]
          exact decide_eq_true hpy
        · rw [List.concat_eq_append, ← List.append_assoc, List.getLast?_concat]
          intro hlast
          have ha : a = "__pycache__" := by
            injection hlast
          have hthis := hsuf a (by simp)
          rw [ha, skipName] at hthis
          simp [hpy] at hthis
      · intro hmem
        have hthis := hsuf "__pycache__" hmem
        rw [skipName] at hthis
        simp [hpy] at hthis
    · rw [if_neg hd] at hrec; cases hrec

/-- Witness for C9 at the default configuration: the walk of `rootCache`
yields its loose `a.pyc` (with a parent that is not `__pycache__`), while
the `__pycache__` subtree is pruned. -/
theorem c9_witness :
    ("a.pyc" ∉ defaultConfig.skip_directories ∧
      (["home", "u", ".cache", "torch"] : List String).getLast? ≠ some "__pycache__" ∧
      ∃ suffix, ["home", "u", ".cache", "torch"] = rootCache.path ++ suffix ∧
        "__pycache__" ∉ suffix) := by
  refine c9_confirmed defaultConfig rootCache (by decide)
    ⟨["home", "u", ".cache", "torch"], "a.pyc", ⟨1024, some 0⟩⟩ ?_
  simp [walkRoot, walkList, rootCache, defaultConfig, SecurityConfig.default,
    skipName, rootName]

/-! ## C5: symlinked files and the follow flag -/

/-- C5, counterexample: a symlink whose target is a regular file is
reported by the walk only when `follow_symlinks` is true (walkdir then
classifies the entry by its target's type); with the flag off — the
default — the entry has symlink file type, `is_file()` is false, and the
file is not reported, refuting "always reported regardless of the
flag". -/
theorem c5_counterexample :
    defaultConfig.follow_symlinks = false ∧
    walkRoot defaultConfig rootLink = [] ∧
    walkRoot cfgFollow rootLink = [⟨["r"], "f.bin", ⟨7, some 0⟩⟩] := by
  refine ⟨rfl, ?_, ?_⟩
  · simp [walkRoot, walkList, rootLink, defaultConfig, SecurityConfig.default,
      skipName, rootName]
  · simp [walkRoot, walkList, rootLink, cfgFollow, defaultConfig,
      SecurityConfig.default, skipName, rootName]

/-- C5, amended: with `follow_symlinks = false` the walk output is
unchanged when every symlink-to-file entry is erased from the tree (such
entries are never reported, and no dereferenced target appears); with
`follow_symlinks = true` a non-skipped symlink-to-file entry is reported
as the link's own path. -/
theorem c5_amended (config : ClearModelConfig) :
    (config.follow_symlinks = false →
      ∀ d rp entries, walkList config d rp entries =
        walkList config d rp (dropSymlinkFiles entries)) ∧
    (config.follow_symlinks = true →
      ∀ d rp n m rest, skipName config n = false →
        walkList config d rp (.symlinkFile n m :: rest) =
          ⟨rp, n, m⟩ :: walkList config d rp rest) := by
  constructor
  · intro hoff d rp entries
    induction d, rp, entries using walkList.induct config with
    | case1 d rp => rw [dropSymlinkFiles]
    | case2 d rp e rest ihe ihrest =>
      cases e with
      | file n m =>
        rw [dropSymlinkFiles, walkList.eq_def, walkList.eq_def]
        dsimp only
        rw [ihrest]
      | symlinkFile n m =>
        rw [dropSymlinkFiles, walkList.eq_def]
        dsimp only
        rw [hoff]
        simp [ihrest]
      | dir n ch =>
        rw [dropSymlinkFiles, walkList.eq_def, walkList.eq_def]
        dsimp only
        rw [ihrest, ihe]
      | symlinkDir n ch =>
        rw [dropSymlinkFiles, walkList.eq_def, walkList.eq_def]
        dsimp only
        rw [ihrest, ihe]
  · intro hon d rp n m rest hskip
    rw [walkList.eq_def]
    dsimp only
    rw [hon, if_neg (by rw [hskip]; exact Bool.false_ne_true)]
    simp

/-- Witness for C5's amended theorem at a concrete tree: the symlinked
`f.bin` contributes nothing with the flag off, and is reported as the
link itself with the flag on. -/
theorem c5_amended_witness :
    (walkList defaultConfig 1 ["r"] [.symlinkFile "f.bin" ⟨7, some 0⟩] =
      walkList defaultConfig 1 ["r"] (dropSymlinkFiles [.symlinkFile "f.bin" ⟨7, some 0⟩])) ∧
    (walkList cfgFollow 1 ["r"] [.symlinkFile "f.bin" ⟨7, some 0⟩] =
      ⟨["r"], "f.bin", ⟨7, some 0⟩⟩ :: walkList cfgFollow 1 ["r"] []) := by
  constructor
  · exact (c5_amended defaultConfig).1 rfl 1 ["r"] [.symlinkFile "f.bin" ⟨7, some 0⟩]
  · exact (c5_amended cfgFollow).2 rfl 1 ["r"] "f.bin" ⟨7, some 0⟩ [] (by decide)

/-! ## C7: the bytes/files accounting invariant -/

/-- C7: every `CleanupResult` a job returns counts exactly the walked,
policy-matching files: `files_removed` is their number and `bytes_freed`
the sum of their sizes; in particular `bytes_freed = 0` whenever
`files_removed = 0` (and both are `Nat`, hence never negative). -/
theorem c7_confirmed (config : ClearModelConfig) (now : Nat) (root : CacheRoot)
    (dry : Bool) (res : CleanupResult) (after : CacheRoot)
    (h : clean_cache_directory config now root dry = .ok (res, after)) :
    res.files_removed = (eligibleFiles config now root).length ∧
    res.bytes_freed = ((eligibleFiles config now root).map (fun f => f.meta.size)).sum ∧
    (res.files_removed = 0 → res.bytes_freed = 0) := by
  cases hg : gatesOk config root with
  | false =>
    obtain ⟨e, he⟩ := clean_cache_directory_of_gatesFail config now root dry hg
    rw [he] at h
    cases h
  | true =>
    rw [clean_cache_directory_of_gatesOk config now root dry hg] at h
    rw [Except.ok.injEq, Prod.mk.injEq] at h
    obtain ⟨hres, -⟩ := h
    subst hres
    refine ⟨rfl, rfl, ?_⟩
    intro h0
    simp only at h0
    rw [List.length_eq_zero] at h0
    simp [h0]

/-- Witness for C7: the sweep of `rootCache` at time 1000 removes exactly
the one eligible file (`a.pyc`, 1024 bytes). -/
theorem c7_witness :
    resCache.files_removed = (eligibleFiles defaultConfig 1000 rootCache).length ∧
    resCache.bytes_freed =
      ((eligibleFiles defaultConfig 1000 rootCache).map (fun f => f.meta.size)).sum ∧
    (resCache.files_removed = 0 → resCache.bytes_freed = 0) := by
  refine c7_confirmed defaultConfig 1000 rootCache true resCache rootCache ?_
  rw [clean_cache_directory_of_gatesOk defaultConfig 1000 rootCache true (by decide)]
  simp +decide [eligibleFiles, walkRoot, walkList, rootCache, resCache, defaultConfig,
    SecurityConfig.default, skipName, rootName, should_clean_file, extMatch,
    extension, extScan, maxAgeSecs]

/-! ## C3: one result record per root -/

/-- C3, counterexample: a configured, existing root whose path contains a
user-data keyword fails the security gate; its job returns `Err`, and
`clean_all_caches` drops it from the returned results — the sweep of the
one-root list `[rootDoc]` returns zero `CleanupResult` records, not one
per root. -/
theorem c3_counterexample :
    (clean_all_caches defaultConfig 0 [rootDoc] true).1 = [] ∧
    [rootDoc].length = 1 := by
  constructor
  · obtain ⟨e, he⟩ := clean_cache_directory_of_gatesFail defaultConfig 0 rootDoc true
      (by decide)
    rw [clean_all_caches, he]
    rfl
  · rfl

/-- C3, amended: for every list of existing roots — mixed passers and
failers included — the sweep's result list is exactly the per-root
record of each root that passes the two security gates, in root order:
one record per gate-passing root, no record for a gate-failing root
wherever it occurs, and the records of sibling roots unaffected.
Consequently the number of records equals the number of gate-passing
roots, and equals the number of roots when every root passes.  (An
internal `process_directory_contents` failure would land in the root's
`errors` list, but that function always returns `Ok`.) -/
theorem c3_amended (config : ClearModelConfig) (now : Nat) (dry : Bool)
    (roots : List CacheRoot) :
    (clean_all_caches config now roots dry).1 =
      (roots.filter (fun r => gatesOk config r)).map (rootRecord config now) ∧
    (clean_all_caches config now roots dry).1.length =
      (roots.filter (fun r => gatesOk config r)).length ∧
    ((∀ r ∈ roots, gatesOk config r = true) →
      (clean_all_caches config now roots dry).1.length = roots.length) := by
  have hmain : ∀ rs : List CacheRoot,
      (clean_all_caches config now rs dry).1 =
        (rs.filter (fun r => gatesOk config r)).map (rootRecord config now) := by
    intro rs
    induction rs with
    | nil => rfl
    | cons r rest ih =>
      rw [clean_all_caches]
      cases hg : gatesOk config r with
      | true =>
        rw [clean_cache_directory_of_gatesOk config now r dry hg]
        simp [List.filter_cons, hg, ih, rootRecord]
      | false =>
        obtain ⟨e, he⟩ := clean_cache_directory_of_gatesFail config now r dry hg
        rw [he]
        simp [List.filter_cons, hg, ih]
  refine ⟨hmain roots, ?_, ?_⟩
  · rw [hmain roots, List.length_map]
  · intro hall
    rw [hmain roots, List.length_map, List.filter_eq_self.mpr hall]

/-- Witness for C3's amended theorem at the mixed sweep
`[rootCache, rootDoc]` (a gate-passing root followed by a gate-failing
one): the result list is exactly the record of the passing root, and the
all-passing sweep `[rootCache]` yields one record per root. -/
theorem c3_amended_witness :
    (clean_all_caches defaultConfig 1000 [rootCache, rootDoc] true).1 =
      (([rootCache, rootDoc].filter (fun r => gatesOk defaultConfig r)).map
        (rootRecord defaultConfig 1000)) ∧
    (clean_all_caches defaultConfig 1000 [rootCache] true).1.length =
      [rootCache].length := by
  constructor
  · exact (c3_amended defaultConfig 1000 true [rootCache, rootDoc]).1
  · exact (c3_amended defaultConfig 1000 true [rootCache]).2.2 (by decide)

/-! ## C6: dry-run idempotence -/

/-- C6: a dry-run sweep leaves every tree unchanged (no file is removed),
so a second dry run over the unchanged trees returns the identical
result list; and the dry-run results — counts and byte totals — equal
what a real sweep over the same trees would report, because only the
final deletion step is short-circuited. -/
theorem c6_confirmed (config : ClearModelConfig) (now : Nat)
    (roots : List CacheRoot) :
    (clean_all_caches config now roots true).2 = roots ∧
    (clean_all_caches config now (clean_all_caches config now roots true).2 true).1 =
      (clean_all_caches config now roots true).1 ∧
    (clean_all_caches config now roots true).1 =
      (clean_all_caches config now roots false).1 := by
  have hfs : ∀ rs : List CacheRoot, (clean_all_caches config now rs true).2 = rs := by
    intro rs
    induction rs with
    | nil => rfl
    | cons r rest ih =>
      rw [clean_all_caches]
      cases hg : gatesOk config r with
      | true =>
        rw [clean_cache_directory_of_gatesOk config now r true hg]
        simp [ih]
      | false =>
        obtain ⟨e, he⟩ := clean_cache_directory_of_gatesFail config now r true hg
        rw [he]
        simp [ih]
  have hres : ∀ rs : List CacheRoot,
      (clean_all_caches config now rs true).1 =
        (clean_all_caches config now rs false).1 := by
    intro rs
    induction rs with
    | nil => rfl
    | cons r rest ih =>
      rw [clean_all_caches, clean_all_caches]
      cases hg : gatesOk config r with
      | true =>
        rw [clean_cache_directory_of_gatesOk config now r true hg,
          clean_cache_directory_of_gatesOk config now r false hg]
        simp [ih]
      | false =>
        obtain ⟨e1, he1⟩ := clean_cache_directory_of_gatesFail config now r true hg
        obtain ⟨e2, he2⟩ := clean_cache_directory_of_gatesFail config now r false hg
        rw [he1, he2]
        simp [ih]
  refine ⟨hfs roots, ?_, hres roots⟩
  rw [hfs roots]

end Clearmodel
